import Mathlib

/-!
Shallow embedding of the stringkitjs string-utility library and proofs about
the behaviour its specification claims.

Strings are modelled as Lean `String`s, manipulated through their `data`
character lists.  JavaScript numbers are modelled as exact fractions
`JSNum` (an integer numerator with a positive natural denominator), which
keeps every operation the library performs on them (comparisons,
`Math.floor`, `Math.max`, integer truncation) computable by the kernel.
JavaScript's dynamic typing is modelled by the `JSVal` sum type, and a
thrown `TypeError` by the `Err` structure inside `Except`.
Character case mapping (`toUpperCase`/`toLowerCase` applied per character)
is modelled by core's ASCII `Char.toUpper`/`Char.toLower`, which is exact
on the ASCII range the library's own regular expressions single out.
-/

namespace Stringkit

/-- A JavaScript number, as the exact fraction `num / den` (`den` is kept
positive by every constructor used in this development). -/
structure JSNum where
  num : Int
  den : Nat
deriving DecidableEq, Repr

/-- The JS number holds a negative value (for positive `den`). -/
abbrev JSNum.isNeg (q : JSNum) : Prop := q.num < 0

/-- `Number.isInteger` on the modelled number. -/
abbrev JSNum.isInt (q : JSNum) : Prop := q.num % (q.den : Int) = 0

/-- `Math.floor` of the modelled number. -/
def JSNum.floor (q : JSNum) : Int := Int.fdiv q.num (q.den : Int)

/-- JavaScript `ToIntegerOrInfinity`: truncation toward zero, as used by
`String.prototype.slice` and `String.prototype.repeat` on fractional
arguments. -/
def JSNum.trunc (q : JSNum) : Int := Int.tdiv q.num (q.den : Int)

/-- `q - n` for a natural number `n` (used for `length - string.length`). -/
def JSNum.subNat (q : JSNum) (n : Nat) : JSNum := ⟨q.num - n * q.den, q.den⟩

/-- `q - i` for an integer `i`. -/
def JSNum.subInt (q : JSNum) (i : Int) : JSNum := ⟨q.num - i * q.den, q.den⟩

/-- `Math.max(0, q)`. -/
def JSNum.max0 (q : JSNum) : JSNum := if q.num < 0 then ⟨0, 1⟩ else q

/-- `q / 2` (used by `center` for the left padding share). -/
def JSNum.half (q : JSNum) : JSNum := ⟨q.num, q.den * 2⟩

/-- `q < n` for a natural number `n` (cross-multiplied; used for
`string.length > length`-style comparisons where `q` has positive `den`). -/
abbrev JSNum.ltNat (q : JSNum) (n : Nat) : Prop := q.num < (n : Int) * q.den

/-- How the number prints inside a template literal.  Exact for integers
(the only numbers whose messages the development inspects); fractional
values print as `num/den` rather than as a decimal. -/
def JSNum.display (q : JSNum) : String :=
  if q.num % (q.den : Int) = 0 then toString q.floor
  else toString q.num ++ "/" ++ toString q.den

/-- A JavaScript value, restricted to the primitive shapes the library's
validation distinguishes. -/
inductive JSVal where
  | str (s : String)
  | num (q : JSNum)
  | bool (b : Bool)
  | undef
deriving DecidableEq, Repr

/-- JavaScript `typeof`. -/
def typeof : JSVal → String
  | .str _ => "string"
  | .num _ => "number"
  | .bool _ => "boolean"
  | .undef => "undefined"

/-- How the value prints inside a template literal. -/
def jsDisplay : JSVal → String
  | .str s => s
  | .num q => q.display
  | .bool b => cond b "true" "false"
  | .undef => "undefined"

/-- Is the value a JS number? -/
def JSVal.isNumber : JSVal → Bool
  | .num _ => true
  | _ => false

/-- A thrown JavaScript error: constructor name and message.  Every error
the library throws is a `TypeError`. -/
structure Err where
  name : String
  msg : String
deriving DecidableEq, Repr

/-- The error kind (constructor name) of a result, if it is an error. -/
def errKindOf : Except Err String → Option String
  | .error e => some e.name
  | .ok _ => none

def exceptDecEq : DecidableEq (Except Err String) := fun x y =>
  match x, y with
  | .ok a, .ok b =>
    if h : a = b then isTrue (by rw [h]) else isFalse (fun hc => by cases hc; exact h rfl)
  | .error a, .error b =>
    if h : a = b then isTrue (by rw [h]) else isFalse (fun hc => by cases hc; exact h rfl)
  | .ok _, .error _ => isFalse (fun hc => by cases hc)
  | .error _, .ok _ => isFalse (fun hc => by cases hc)

instance : DecidableEq (Except Err String) := exceptDecEq

/- ### Character classes -/

/-- The characters matched by JavaScript's `\\s` (also the set removed by
`String.prototype.trim`): space, tab, line feed, vertical tab, form feed,
carriage return, NBSP (U+00A0), ogham space (U+1680), the U+2000-U+200A
spaces, the U+2028/U+2029 line separators, U+202F, U+205F, ideographic
space (U+3000) and the BOM (U+FEFF). -/
def isJsWhitespace (c : Char) : Bool :=
  c.toNat = 32 ∨ c.toNat = 9 ∨ c.toNat = 10 ∨ c.toNat = 11 ∨ c.toNat = 12 ∨
  c.toNat = 13 ∨ c.toNat = 160 ∨ c.toNat = 5760 ∨
  (8192 ≤ c.toNat ∧ c.toNat ≤ 8202) ∨ c.toNat = 8232 ∨ c.toNat = 8233 ∨
  c.toNat = 8239 ∨ c.toNat = 8287 ∨ c.toNat = 12288 ∨ c.toNat = 65279

/-- ASCII alphanumeric, the class `[a-zA-Z0-9]` used by `camelCase`. -/
def isAsciiAlnum (c : Char) : Bool :=
  (65 ≤ c.toNat ∧ c.toNat ≤ 90) ∨ (97 ≤ c.toNat ∧ c.toNat ≤ 122) ∨
  (48 ≤ c.toNat ∧ c.toNat ≤ 57)

/-- Line terminators (LF, CR, U+2028, U+2029), which JavaScript's `.`
(dot) does not match. -/
def isLineTerm (c : Char) : Bool :=
  c.toNat = 10 ∨ c.toNat = 13 ∨ c.toNat = 8232 ∨ c.toNat = 8233

/-- Combining diacritical marks, the range U+0300-U+036F stripped by
`slugify` after NFD normalization. -/
def isCombining (c : Char) : Bool := 768 ≤ c.toNat ∧ c.toNat ≤ 879


/- ### List-level string primitives -/

/-- JavaScript `string.split(' ')`: every single space is a separator and
empty fields are kept, so the result is always non-empty. -/
def splitSpace : List Char → List (List Char)
  | [] => [[]]
  | c :: cs =>
    if c = ' ' then [] :: splitSpace cs
    else
      match splitSpace cs with
      | w :: ws => (c :: w) :: ws
      | [] => [[c]]

/-- Scanner for JavaScript `string.split(/\s+/)`.  In token mode
(`inRun = false`) it accumulates the current field in reverse in `acc`;
in run mode it skips a maximal whitespace run.  A run at the very end
contributes a trailing empty field, and splitting the empty string yields
`[[]]`, exactly as in JavaScript. -/
def splitWsGo : Bool → List Char → List Char → List (List Char)
  | false, acc, [] => [acc.reverse]
  | false, acc, c :: cs =>
    if isJsWhitespace c then acc.reverse :: splitWsGo true [] cs
    else splitWsGo false (c :: acc) cs
  | true, _, [] => [[]]
  | true, _, c :: cs =>
    if isJsWhitespace c then splitWsGo true [] cs
    else splitWsGo false [c] cs

/-- JavaScript `string.split(/\s+/)`. -/
def splitWs (l : List Char) : List (List Char) := splitWsGo false [] l

/-- JavaScript `string.trim()`. -/
def trimData (l : List Char) : List Char :=
  ((l.dropWhile isJsWhitespace).reverse.dropWhile isJsWhitespace).reverse

/-- JavaScript `string.repeat(n)` for a non-negative integer count. -/
def repeatData (l : List Char) : Nat → List Char
  | 0 => []
  | n + 1 => l ++ repeatData l n

/-- Word lowercasing, `word.toLowerCase()` (ASCII model). -/
def lowerData (l : List Char) : List Char := l.map Char.toLower

/- ### The embedded library -/

/-- Embeds `assertString(value, name)`: throws
`TypeError: Expected "name" to be a string, but got <typeof>` unless the
value is a string.  For convenience the checked string is returned. -/
def assertString (value : JSVal) (name : String) : Except Err String :=
  match value with
  | .str s => .ok s
  | v =>
    .error ⟨"TypeError",
      "Expected \"" ++ name ++ "\" to be a string, but got " ++ typeof v⟩

/-- Core of `capitalize`: the empty string is unchanged; otherwise the
first character is uppercased and the remainder kept as is. -/
def capitalizeData : List Char → List Char
  | [] => []
  | c :: cs => c.toUpper :: cs

/-- Embeds `capitalize(string)`. -/
def capitalize (string : JSVal) : Except Err String := do
  let s ← assertString string "string"
  pure ⟨capitalizeData s.data⟩

/-- The fixed stop-word list of `title` (named `exceptions` in the
source). -/
def exceptions : List (List Char) :=
  (["a", "an", "the", "and", "but", "for", "nor", "or", "so", "to", "up",
    "yet", "with", "as", "by", "in", "of", "on", "at", "from"]).map String.data

/-- Core of `title`: split on single spaces (computed once into `words`),
capitalize each word unless smart mode lowercases an interior stop word,
rejoin with single spaces. -/
def titleData (l : List Char) (smart : Bool) : List Char :=
  let words := splitSpace l
  List.intercalate [' '] (words.enum.map fun iw =>
    if !smart || iw.1 == 0 || iw.1 == words.length - 1 ||
        !(exceptions.contains (lowerData iw.2)) then
      capitalizeData iw.2
    else lowerData iw.2)

/-- Embeds `title(string, smart = false)` (the `smart` default is applied
by callers). -/
def title (string smart : JSVal) : Except Err String := do
  let s ← assertString string "string"
  match smart with
  | .bool b => pure ⟨titleData s.data b⟩
  | v => throw ⟨"TypeError", "Expected \"smart\" to be a boolean, got " ++ typeof v⟩

/-- Models `normalize('NFD')` on one character: canonical decompositions
of the precomposed Latin letters this development evaluates (base letter
followed by its U+0300-U+036F combining mark); identity elsewhere. -/
def nfdChar : Char → List Char
  | 'à' => ['a', '̀']
  | 'á' => ['a', '́']
  | 'â' => ['a', '̂']
  | 'ã' => ['a', '̃']
  | 'ä' => ['a', '̈']
  | 'ç' => ['c', '̧']
  | 'è' => ['e', '̀']
  | 'é' => ['e', '́']
  | 'ê' => ['e', '̂']
  | 'ë' => ['e', '̈']
  | 'ì' => ['i', '̀']
  | 'í' => ['i', '́']
  | 'î' => ['i', '̂']
  | 'ï' => ['i', '̈']
  | 'ñ' => ['n', '̃']
  | 'ò' => ['o', '̀']
  | 'ó' => ['o', '́']
  | 'ô' => ['o', '̂']
  | 'õ' => ['o', '̃']
  | 'ö' => ['o', '̈']
  | 'ù' => ['u', '̀']
  | 'ú' => ['u', '́']
  | 'û' => ['u', '̂']
  | 'ü' => ['u', '̈']
  | 'ý' => ['y', '́']
  | 'À' => ['A', '̀']
  | 'É' => ['E', '́']
  | 'Ç' => ['C', '̧']
  | c => [c]

/-- The character class kept by `slugify`'s filter: everything outside
`[^a-z0-9\s-]` is removed. -/
def slugKeep (c : Char) : Bool :=
  (97 ≤ c.toNat ∧ c.toNat ≤ 122) ∨ (48 ≤ c.toNat ∧ c.toNat ≤ 57) ∨
  isJsWhitespace c = true ∨ c = '-'

/-- `replace(/\s+/g, '-')`: each maximal whitespace run becomes one
hyphen (`inRun` records whether the scanner is inside a run). -/
def wsToHyphen : Bool → List Char → List Char
  | _, [] => []
  | inRun, c :: cs =>
    if isJsWhitespace c then
      (if inRun then [] else ['-']) ++ wsToHyphen true cs
    else c :: wsToHyphen false cs

/-- `replace(/[-]+/g, '-')` (written with a bracket here to keep the
comment well formed): each maximal hyphen run becomes one hyphen. -/
def collapseHyphens : Bool → List Char → List Char
  | _, [] => []
  | inRun, c :: cs =>
    if c = '-' then
      (if inRun then [] else ['-']) ++ collapseHyphens true cs
    else c :: collapseHyphens false cs

/-- Core of `slugify`: lowercase, NFD-decompose, strip combining marks,
drop everything outside `[a-z0-9\s-]`, trim, turn whitespace runs into
single hyphens and collapse hyphen runs. -/
def slugifyData (l : List Char) : List Char :=
  collapseHyphens false (wsToHyphen false (trimData
    ((((l.map Char.toLower).flatMap nfdChar).filter
      (fun c => !isCombining c)).filter slugKeep)))

/-- `slugify` on a plain string. -/
def slugifyStr (s : String) : String := ⟨slugifyData s.data⟩

/-- Embeds `slugify(string)` from the main module. -/
def slugify (string : JSVal) : Except Err String := do
  let s ← assertString string "string"
  pure (slugifyStr s)

/-- The minimal legacy variant of `slugify` from `src/Stringkit.js`:
lowercase and replace every space by a hyphen, nothing else. -/
def slugifyMinimal (s : String) : String :=
  ⟨(s.data.map Char.toLower).map (fun c => if c = ' ' then '-' else c)⟩

/-- JavaScript `string.slice(0, q)`: the end index is truncated toward
zero; a negative end counts from the end of the string. -/
def sliceTo (l : List Char) (q : JSNum) : List Char :=
  if q.trunc < 0 then l.take ((l.length : Int) + q.trunc).toNat
  else l.take q.trunc.toNat

/-- Embeds `truncate(string, length)`. -/
def truncate (string length : JSVal) : Except Err String := do
  let s ← assertString string "string"
  match length with
  | .num q =>
    if q.isNeg then
      throw ⟨"TypeError",
        "Expected \"length\" to be a non-negative number, got " ++ jsDisplay length⟩
    else if q.ltNat s.length then pure ⟨sliceTo s.data q ++ "...".data⟩
    else pure s
  | v =>
    throw ⟨"TypeError",
      "Expected \"length\" to be a non-negative number, got " ++ jsDisplay v⟩

/-- The last character of the list that is not a line terminator, paired
with the characters after it (used to model the backtracking of `(.)` at
the end of the string in `camelCase`'s regex). -/
def lastNonTerm : List Char → Option (Char × List Char)
  | [] => none
  | c :: cs =>
    match lastNonTerm cs with
    | some p => some p
    | none => if isLineTerm c then none else some (c, cs)

/-- What `camelCase`'s global replace does to a maximal non-alphanumeric
run that reaches the end of the string: the greedy `[^a-zA-Z0-9]+` gives
back one character so that `(.)` can capture the run's last
non-line-terminator character (if any beyond the first run character), and
the match is replaced by that character uppercased; with no such capture
the run stays as it is. -/
def trailingSep (run : List Char) : List Char :=
  match run with
  | [] => []
  | r0 :: rs =>
    match lastNonTerm rs with
    | some (a, rest) => a.toUpper :: rest
    | none => r0 :: rs

/-- One pass of `replace(/[^a-zA-Z0-9]+(.)/g, (_, chr) => chr.toUpperCase())`:
alphanumeric characters are copied; a maximal non-alphanumeric run
followed by another character is replaced by that character uppercased
(the greedy `+` swallows the whole run, `(.)` captures the next
character); a run that reaches the end of the input is handled by
`trailingSep`.  The fuel argument only bounds the recursion and is at
least the length of the list at every call. -/
def camelGo : Nat → List Char → List Char
  | 0, _ => []
  | _ + 1, [] => []
  | fuel + 1, c :: cs =>
    if isAsciiAlnum c then c :: camelGo fuel cs
    else
      match cs.dropWhile (fun x => !isAsciiAlnum x) with
      | a :: rest => a.toUpper :: camelGo fuel rest
      | [] => trailingSep (c :: cs)

/-- The camelCase regex replacement. -/
def camelData (l : List Char) : List Char := camelGo l.length l

/-- Core of `camelCase`: lowercase everything, then run the separator
replacement. -/
def camelStr (s : String) : String := ⟨camelData (s.data.map Char.toLower)⟩

/-- Embeds `camelCase(string)`. -/
def camelCase (string : JSVal) : Except Err String := do
  let s ← assertString string "string"
  pure (camelStr s)

/-- Embeds `repeatString(string, times)`. -/
def repeatString (string times : JSVal) : Except Err String := do
  let s ← assertString string "string"
  match times with
  | .num q =>
    if ¬ q.isInt ∨ q.isNeg then
      throw ⟨"TypeError",
        "Expected \"times\" to be a non-negative integer, got " ++ jsDisplay times⟩
    else pure ⟨repeatData s.data q.floor.toNat⟩
  | v =>
    throw ⟨"TypeError",
      "Expected \"times\" to be a non-negative integer, got " ++ jsDisplay v⟩

/-- The `while (!str.startsWith(pre))` loop of `commonPrefix`: repeatedly
drop the last character of the candidate `pre` (`slice(0, -1)`); once the
candidate would become empty the whole function returns the empty string
(`none` here).  The fuel is `pre.length + 1` at every call, enough for the
loop to run to completion. -/
def shortenGo : Nat → List Char → List Char → Option (List Char)
  | 0, _, _ => none
  | fuel + 1, s, pre =>
    if pre.isPrefixOf s then some pre
    else if pre.dropLast = [] then none
    else shortenGo fuel s pre.dropLast

/-- The `for (const str of strings)` loop of `commonPrefix`, threading the
candidate through `shortenGo`; `none` models the early `return ''`. -/
def cpLoop : List (List Char) → List Char → Option (List Char)
  | [], pre => some pre
  | s :: ss, pre =>
    match shortenGo (pre.length + 1) s pre with
    | none => none
    | some p => cpLoop ss p

/-- Core of `commonPrefix`: the empty array yields the empty string;
otherwise the first element is the initial candidate and every element of
the array (including the first) is visited by the loop. -/
def commonPrefixData (strings : List (List Char)) : List Char :=
  match strings with
  | [] => []
  | f :: _ =>
    match cpLoop strings f with
    | none => []
    | some p => p

/-- `commonPrefix` on plain strings. -/
def commonPrefixString (strings : List String) : String :=
  ⟨commonPrefixData (strings.map String.data)⟩

/-- Embeds `commonPrefix(strings)` including its element-type validation
(`Array.isArray` always holds for a typed list). -/
def commonPrefixVal (strings : List JSVal) : Except Err String :=
  if strings.any (fun v => typeof v ≠ "string") then
    .error ⟨"TypeError", "Expected an array of strings"⟩
  else
    .ok (commonPrefixString (strings.map fun v =>
      match v with
      | .str s => s
      | _ => ""))

/-- Embeds `center(string, length, char = ' ')` (the `char` default is
applied by callers).  Note the source validates `char` (string-ness and
single-character) before it validates `length`. -/
def center (string length char : JSVal) : Except Err String := do
  let s ← assertString string "string"
  let c ← assertString char "char"
  if c.length ≠ 1 then
    throw ⟨"TypeError", "Padding character must be a single character."⟩
  else
    match length with
    | .num q =>
      if q.isNeg then
        throw ⟨"TypeError", "Length must be a non-negative number."⟩
      else
        let totalPad := (q.subNat s.length).max0
        let left := totalPad.half.floor
        let right := totalPad.subInt left
        pure ⟨repeatData c.data left.toNat ++ s.data ++
          repeatData c.data right.trunc.toNat⟩
    | _ => throw ⟨"TypeError", "Length must be a non-negative number."⟩

/-- Embeds `lpad(string, length, char = ' ')`; like `center`, the source
validates `char` before `length`. -/
def lpad (string length char : JSVal) : Except Err String := do
  let s ← assertString string "string"
  let c ← assertString char "char"
  if c.length ≠ 1 then
    throw ⟨"TypeError", "Padding character must be a single character."⟩
  else
    match length with
    | .num q =>
      if q.isNeg then
        throw ⟨"TypeError", "Length must be a non-negative number."⟩
      else
        let padLength := (q.subNat s.length).max0
        pure ⟨repeatData c.data padLength.trunc.toNat ++ s.data⟩
    | _ => throw ⟨"TypeError", "Length must be a non-negative number."⟩

/-- Embeds `rpad(string, length, char = ' ')`; like `center`, the source
validates `char` before `length`. -/
def rpad (string length char : JSVal) : Except Err String := do
  let s ← assertString string "string"
  let c ← assertString char "char"
  if c.length ≠ 1 then
    throw ⟨"TypeError", "Padding character must be a single character."⟩
  else
    match length with
    | .num q =>
      if q.isNeg then
        throw ⟨"TypeError", "Length must be a non-negative number."⟩
      else
        let padLength := (q.subNat s.length).max0
        pure ⟨s.data ++ repeatData c.data padLength.trunc.toNat⟩
    | _ => throw ⟨"TypeError", "Length must be a non-negative number."⟩

/-- Embeds `truncateWords(string, wordCount)`. -/
def truncateWords (string wordCount : JSVal) : Except Err String := do
  let s ← assertString string "string"
  match wordCount with
  | .num q =>
    if ¬ q.isInt ∨ q.isNeg then
      throw ⟨"TypeError",
        "Expected \"wordCount\" to be a non-negative integer, got " ++ jsDisplay wordCount⟩
    else
      let words := splitWs (trimData s.data)
      if q.ltNat words.length then
        pure ⟨List.intercalate [' '] (words.take q.floor.toNat) ++ "...".data⟩
      else pure s
  | v =>
    throw ⟨"TypeError",
      "Expected \"wordCount\" to be a non-negative integer, got " ++ jsDisplay v⟩

/- ### Definitions used only by theorem statements and proofs -/

/-- Smart title casing as the specification words it (the refinement
reference for `title`): split once on literal spaces, lowercase exactly
the words that are neither first nor last and whose lowercase form is in
the stop-word set, capitalize every other word, rejoin with single
spaces. -/
def titleSmartSpec (s : String) : String :=
  let words := splitSpace s.data
  ⟨List.intercalate [' '] (words.enum.map fun iw =>
    if iw.1 ≠ 0 ∧ iw.1 ≠ words.length - 1 ∧ exceptions.contains (lowerData iw.2) then
      lowerData iw.2
    else capitalizeData iw.2)⟩

/-- An argument rejected by the number validation of `truncate` (and of
the padding length checks): not a number, or a negative number. -/
def invalidLengthArg : JSVal → Prop
  | .num q => q.isNeg
  | _ => True

/-- An argument rejected by the integer-count validation of
`repeatString` and `truncateWords`: not a number, a non-integer number,
or a negative number. -/
def invalidCountArg : JSVal → Prop
  | .num q => ¬ q.isInt ∨ q.isNeg
  | _ => True

/-- `a` is an initial segment of `b` (the extensional prefix relation on
character lists). -/
def IsInit (a b : List Char) : Prop := ∃ t, a ++ t = b

/-- The longest common initial segment of two character lists (the
mathematical reference point for `commonPrefixData`). -/
def lcp : List Char → List Char → List Char
  | a :: as, b :: bs => if a = b then a :: lcp as bs else []
  | _, _ => []

instance (v : JSVal) : Decidable (invalidLengthArg v) :=
  match v with
  | .num q => (inferInstance : Decidable (q.isNeg))
  | .str _ => .isTrue trivial
  | .bool _ => .isTrue trivial
  | .undef => .isTrue trivial

instance (v : JSVal) : Decidable (invalidCountArg v) :=
  match v with
  | .num q => (inferInstance : Decidable (¬ q.isInt ∨ q.isNeg))
  | .str _ => .isTrue trivial
  | .bool _ => .isTrue trivial
  | .undef => .isTrue trivial

/- ### Shared helper lemmas -/

theorem mk_data (s : String) : String.mk s.data = s := by
  cases s
  rfl

theorem length_data (s : String) : s.length = s.data.length := rfl

theorem ok_bind {α β : Type} (a : α) (f : α → Except Err β) :
    (Except.ok a >>= f : Except Err β) = f a := rfl

/- ### Facts about core's ASCII case mapping -/

theorem toNat_ofNat_valid (n : Nat) (h : n.isValidChar) : (Char.ofNat n).toNat = n := by
  rw [Char.ofNat, dif_pos h]
  simp [Char.ofNatAux, Char.toNat, UInt32.toNat, UInt32.ofNat', BitVec.toNat_ofNatLt]

theorem toUpper_toUpper (c : Char) : c.toUpper.toUpper = c.toUpper := by
  unfold Char.toUpper
  by_cases h : c.toNat ≥ 97 ∧ c.toNat ≤ 122
  · rw [if_pos h]
    have hv : Nat.isValidChar (c.toNat - 32) := Or.inl (by omega)
    rw [toNat_ofNat_valid _ hv, if_neg (by omega)]
  · rw [if_neg h, if_neg h]

theorem toLower_of_not_alnum (c : Char) (h : isAsciiAlnum c = false) :
    Char.toLower c = c := by
  unfold Char.toLower
  rw [if_neg]
  intro hc
  simp only [isAsciiAlnum, decide_eq_false_iff_not] at h
  exact h (Or.inl ⟨hc.1, hc.2⟩)

theorem isAsciiAlnum_toLower (c : Char) :
    isAsciiAlnum (Char.toLower c) = isAsciiAlnum c := by
  unfold Char.toLower
  by_cases h : c.toNat ≥ 65 ∧ c.toNat ≤ 90
  · rw [if_pos h]
    have hv : Nat.isValidChar (c.toNat + 32) := Or.inl (by omega)
    simp only [isAsciiAlnum, toNat_ofNat_valid _ hv]
    have h1 : (97 ≤ c.toNat + 32 ∧ c.toNat + 32 ≤ 122) := by omega
    have h2 : (65 ≤ c.toNat ∧ c.toNat ≤ 90) := h
    simp [h1, h2]
  · rw [if_neg h]

/- ### Arithmetic facts about whole-number JSNum values -/

theorem natNum_not_isNeg (n : Nat) : ¬ (JSNum.mk n 1).isNeg := by
  simp only [JSNum.isNeg]
  omega

theorem natNum_isInt (n : Nat) : (JSNum.mk n 1).isInt := by
  simp only [JSNum.isInt]
  omega

theorem intNum_trunc (a : Int) : (JSNum.mk a 1).trunc = a := by
  simp [JSNum.trunc]

theorem intNum_floor (a : Int) : (JSNum.mk a 1).floor = a := by
  simp [JSNum.floor]

theorem natNum_ltNat (n m : Nat) : (JSNum.mk n 1).ltNat m ↔ n < m := by
  simp only [JSNum.ltNat, Nat.cast_one, mul_one]
  omega

theorem max0_subNat (n len : Nat) :
    ((JSNum.mk n 1).subNat len).max0 = JSNum.mk ((n - len : Nat) : Int) 1 := by
  simp only [JSNum.subNat, JSNum.max0, Nat.cast_one, mul_one]
  by_cases h : n < len
  · rw [if_pos (by omega)]
    refine (JSNum.mk.injEq _ _ _ _).mpr ⟨by omega, rfl⟩
  · rw [if_neg (by omega)]
    refine (JSNum.mk.injEq _ _ _ _).mpr ⟨by omega, rfl⟩

theorem half_floor_nat (p : Nat) :
    (JSNum.mk (p : Int) 1).half.floor = ((p / 2 : Nat) : Int) := by
  simp only [JSNum.half, JSNum.floor]
  rw [show ((1 : Nat) * 2 : Nat) = 2 from rfl, Int.fdiv_eq_ediv _ (by omega)]
  push_cast
  rfl

theorem center_left_count (n len : Nat) :
    ((JSNum.mk n 1).subNat len).max0.half.floor.toNat = (n - len) / 2 := by
  rw [max0_subNat, half_floor_nat]
  omega

theorem center_right_count (n len : Nat) :
    (((JSNum.mk n 1).subNat len).max0.subInt
      ((JSNum.mk n 1).subNat len).max0.half.floor).trunc.toNat
      = (n - len) - (n - len) / 2 := by
  rw [max0_subNat, half_floor_nat]
  simp only [JSNum.subInt, JSNum.trunc, Nat.cast_one, mul_one]
  simp only [Int.tdiv_one]
  omega

theorem pad_count (n len : Nat) :
    ((JSNum.mk n 1).subNat len).max0.trunc.toNat = n - len := by
  rw [max0_subNat, intNum_trunc]
  omega

/- ### C9 -/

/-- C9: `capitalize` is idempotent — applying it twice equals applying it
once; the empty string is unchanged and otherwise only the first character
is uppercased, the remainder of the string untouched. -/
theorem capitalize_idempotent (s : String) :
    capitalize (.str s) = .ok ⟨capitalizeData s.data⟩ ∧
    (capitalize (.str s)).bind (fun t => capitalize (.str t)) = capitalize (.str s) := by
  refine ⟨rfl, ?_⟩
  have h : capitalizeData (capitalizeData s.data) = capitalizeData s.data := by
    cases s.data with
    | nil => rfl
    | cons c cs => simp [capitalizeData, toUpper_toUpper]
  show Except.ok (String.mk (capitalizeData (String.mk (capitalizeData s.data)).data)) =
    Except.ok (String.mk (capitalizeData s.data))
  rw [show (String.mk (capitalizeData s.data)).data = capitalizeData s.data from rfl, h]

/- ### C5 -/

/-- C5: `slugify` follows the full pipeline (lowercase, NFD decomposition
with combining-mark stripping, character filtering, trim, whitespace runs
to single hyphens, hyphen-run collapsing); on the reference input it
folds the accents away, while the minimal legacy variant from
`src/Stringkit.js` does not and is therefore not the behavioural
reference. -/
theorem slugify_full_pipeline :
    (∀ s : String, slugify (.str s) = .ok (slugifyStr s)) ∧
    slugifyStr "Café déjà vu!" = "cafe-deja-vu" ∧
    slugifyMinimal "Café déjà vu!" = "café-déjà-vu!" ∧
    slugifyMinimal "Café déjà vu!" ≠ slugifyStr "Café déjà vu!" := by
  exact ⟨fun s => rfl, by decide, by decide, by decide⟩

/- ### C1 -/

/-- C1 counterexample: with `length = -1` (invalid) and `char = "ab"`
(also invalid), `center` raises the padding-character error, not the
length error the claim requires for the earlier declared argument. -/
theorem center_char_before_length_cex :
    center (.str "hi") (.num ⟨-1, 1⟩) (.str "ab") =
      .error ⟨"TypeError", "Padding character must be a single character."⟩ ∧
    Err.mk "TypeError" "Padding character must be a single character." ≠
      Err.mk "TypeError" "Length must be a non-negative number." := by
  decide

/-- C1 amended: validation order of the padding functions is `string`
first, then `char` (string-ness, then single-character), and `length`
last — so when both `length` and `char` are invalid, the `char` error is
raised.  Each conjunct pins the error raised at one stage regardless of
the arguments validated later. -/
theorem pad_validation_order (s c : String) (len : JSVal) :
    (∀ v : JSVal, typeof v ≠ "string" →
      center v len (.str c) =
          .error ⟨"TypeError", "Expected \"string\" to be a string, but got " ++ typeof v⟩ ∧
        lpad v len (.str c) =
          .error ⟨"TypeError", "Expected \"string\" to be a string, but got " ++ typeof v⟩ ∧
        rpad v len (.str c) =
          .error ⟨"TypeError", "Expected \"string\" to be a string, but got " ++ typeof v⟩) ∧
    (∀ v : JSVal, typeof v ≠ "string" →
      center (.str s) len v =
          .error ⟨"TypeError", "Expected \"char\" to be a string, but got " ++ typeof v⟩ ∧
        lpad (.str s) len v =
          .error ⟨"TypeError", "Expected \"char\" to be a string, but got " ++ typeof v⟩ ∧
        rpad (.str s) len v =
          .error ⟨"TypeError", "Expected \"char\" to be a string, but got " ++ typeof v⟩) ∧
    (c.length ≠ 1 →
      center (.str s) len (.str c) =
          .error ⟨"TypeError", "Padding character must be a single character."⟩ ∧
        lpad (.str s) len (.str c) =
          .error ⟨"TypeError", "Padding character must be a single character."⟩ ∧
        rpad (.str s) len (.str c) =
          .error ⟨"TypeError", "Padding character must be a single character."⟩) ∧
    (c.length = 1 → invalidLengthArg len →
      center (.str s) len (.str c) =
          .error ⟨"TypeError", "Length must be a non-negative number."⟩ ∧
        lpad (.str s) len (.str c) =
          .error ⟨"TypeError", "Length must be a non-negative number."⟩ ∧
        rpad (.str s) len (.str c) =
          .error ⟨"TypeError", "Length must be a non-negative number."⟩) := by
  refine ⟨?_, ?_, ?_, ?_⟩
  · intro v hv
    cases v <;> simp [typeof] at hv ⊢ <;>
      exact ⟨rfl, rfl, rfl⟩
  · intro v hv
    cases v <;> simp [typeof] at hv ⊢ <;>
      exact ⟨rfl, rfl, rfl⟩
  · intro hc
    simp only [center, lpad, rpad, assertString, ok_bind]
    rw [if_pos hc, if_pos hc, if_pos hc]
    exact ⟨rfl, rfl, rfl⟩
  · intro hc hl
    cases len with
    | num q =>
      simp only [invalidLengthArg] at hl
      simp only [center, lpad, rpad, assertString, ok_bind]
      rw [if_neg (not_not_intro hc), if_neg (not_not_intro hc), if_neg (not_not_intro hc),
        if_pos hl, if_pos hl, if_pos hl]
      exact ⟨rfl, rfl, rfl⟩
    | str t =>
      simp only [center, lpad, rpad, assertString, ok_bind]
      rw [if_neg (not_not_intro hc)]
      exact ⟨rfl, rfl, rfl⟩
    | bool b =>
      simp only [center, lpad, rpad, assertString, ok_bind]
      rw [if_neg (not_not_intro hc)]
      exact ⟨rfl, rfl, rfl⟩
    | undef =>
      simp only [center, lpad, rpad, assertString, ok_bind]
      rw [if_neg (not_not_intro hc)]
      exact ⟨rfl, rfl, rfl⟩

/-- C1 witness: at `center("hi", -1, "ab")` the char stage fires even
though the length argument is also invalid. -/
theorem pad_validation_order_wit :
    center (.str "hi") (.num ⟨-1, 1⟩) (.str "ab") =
        .error ⟨"TypeError", "Padding character must be a single character."⟩ ∧
      lpad (.str "hi") (.num ⟨-1, 1⟩) (.str "ab") =
        .error ⟨"TypeError", "Padding character must be a single character."⟩ ∧
      rpad (.str "hi") (.num ⟨-1, 1⟩) (.str "ab") =
        .error ⟨"TypeError", "Padding character must be a single character."⟩ :=
  (pad_validation_order "hi" "ab" (.num ⟨-1, 1⟩)).2.2.1 (by decide)

/- ### C2 -/

/-- C2 counterexample: a negative length (the claim's `InvalidArgument`
case) and a non-number length (the claim's `InvalidType` case) raise
errors of one and the same kind — the code has only `TypeError`, not two
distinct kinds. -/
theorem truncate_single_error_kind_cex :
    errKindOf (truncate (.str "hi") (.num ⟨-1, 1⟩)) = some "TypeError" ∧
    errKindOf (truncate (.str "hi") (.bool true)) = some "TypeError" ∧
    errKindOf (truncate (.str "hi") (.num ⟨-1, 1⟩)) =
      errKindOf (truncate (.str "hi") (.bool true)) := by
  decide

/-- C2 amended: every invalid numeric argument raises the single error
kind `TypeError`; the type-versus-value split exists only in which check
fires, not in the kind of error raised. -/
theorem numeric_validation_single_kind (s c : String) (v : JSVal) (q : JSNum) :
    (invalidLengthArg v → errKindOf (truncate (.str s) v) = some "TypeError") ∧
    (invalidCountArg v → errKindOf (repeatString (.str s) v) = some "TypeError") ∧
    (invalidCountArg v → errKindOf (truncateWords (.str s) v) = some "TypeError") ∧
    (c.length ≠ 1 →
      errKindOf (center (.str s) (.num q) (.str c)) = some "TypeError" ∧
      errKindOf (lpad (.str s) (.num q) (.str c)) = some "TypeError" ∧
      errKindOf (rpad (.str s) (.num q) (.str c)) = some "TypeError") := by
  refine ⟨?_, ?_, ?_, ?_⟩
  · intro hv
    cases v with
    | num p =>
      simp only [invalidLengthArg] at hv
      simp only [truncate, assertString, ok_bind]
      rw [if_pos hv]
      rfl
    | str t => rfl
    | bool b => rfl
    | undef => rfl
  · intro hv
    cases v with
    | num p =>
      simp only [invalidCountArg] at hv
      simp only [repeatString, assertString, ok_bind]
      rw [if_pos hv]
      rfl
    | str t => rfl
    | bool b => rfl
    | undef => rfl
  · intro hv
    cases v with
    | num p =>
      simp only [invalidCountArg] at hv
      simp only [truncateWords, assertString, ok_bind]
      rw [if_pos hv]
      rfl
    | str t => rfl
    | bool b => rfl
    | undef => rfl
  · intro hc
    simp only [center, lpad, rpad, assertString, ok_bind]
    rw [if_pos hc, if_pos hc, if_pos hc]
    exact ⟨rfl, rfl, rfl⟩

/-- C2 witness: a negative length, a fractional repeat count, a
non-number word count and a two-character pad all raise `TypeError`. -/
theorem numeric_validation_single_kind_wit :
    errKindOf (truncate (.str "x") (.num ⟨-3, 1⟩)) = some "TypeError" ∧
    errKindOf (repeatString (.str "x") (.num ⟨5, 2⟩)) = some "TypeError" ∧
    errKindOf (truncateWords (.str "x") (.bool false)) = some "TypeError" ∧
    errKindOf (center (.str "x") (.num ⟨4, 1⟩) (.str "**")) = some "TypeError" :=
  ⟨(numeric_validation_single_kind "x" "**" (.num ⟨-3, 1⟩) ⟨4, 1⟩).1 (by decide),
   (numeric_validation_single_kind "x" "**" (.num ⟨5, 2⟩) ⟨4, 1⟩).2.1 (by decide),
   (numeric_validation_single_kind "x" "**" (.bool false) ⟨4, 1⟩).2.2.1 (by decide),
   ((numeric_validation_single_kind "x" "**" (.bool false) ⟨4, 1⟩).2.2.2 (by decide)).1⟩

/- ### C3 -/

/-- C3 counterexample: the claim quantifies over every non-negative
number, but at the fractional length `5/2` the slice index is truncated to
`2`, the output is `"he..."` of length `5`, and `5 ≠ 5/2 + 3`
(cross-multiplied by the denominator `2`: `2·5 ≠ 2·3 + 5`). -/
theorem truncate_fractional_length_cex :
    truncate (.str "hello") (.num ⟨5, 2⟩) = .ok "he..." ∧
    2 * ("he..." : String).length ≠ 2 * 3 + 5 := by
  decide

/-- C3 amended: for every non-negative integer length `n`, `truncate`
returns the input unchanged when its length is at most `n` and otherwise
the first `n` characters followed by the three-character `"..."`, for a
total length of `n + 3` (not clamped to `n`). -/
theorem truncate_spec (s : String) (n : Nat) :
    (s.length ≤ n → truncate (.str s) (.num ⟨n, 1⟩) = .ok s) ∧
    (n < s.length →
      truncate (.str s) (.num ⟨n, 1⟩) = .ok ⟨s.data.take n ++ "...".data⟩ ∧
      (s.data.take n ++ "...".data).length = n + 3) := by
  have hneg : ¬ (JSNum.mk n 1).isNeg := natNum_not_isNeg n
  constructor
  · intro h
    simp only [truncate, assertString, ok_bind]
    rw [if_neg hneg, if_neg (by rw [natNum_ltNat]; omega)]
    rfl
  · intro h
    constructor
    · simp only [truncate, assertString, ok_bind]
      rw [if_neg hneg, if_pos (by rw [natNum_ltNat]; omega)]
      rw [show sliceTo s.data ⟨n, 1⟩ = s.data.take n by
        rw [sliceTo, intNum_trunc, if_neg (by omega), Int.toNat_natCast]]
      rfl
    · have h3 : ("...".data).length = 3 := rfl
      rw [List.length_append, h3, List.length_take]
      rw [← length_data]
      omega

/-- C3 witness: `truncate("hello world", 5) = "hello..."`, and a short
string is returned unchanged. -/
theorem truncate_spec_wit :
    truncate (.str "hello world") (.num ⟨5, 1⟩) = .ok "hello..." ∧
    truncate (.str "hi") (.num ⟨5, 1⟩) = .ok "hi" := by
  constructor
  · exact ((truncate_spec "hello world" 5).2 (by decide)).1.trans
      (congrArg Except.ok (by decide))
  · exact (truncate_spec "hi" 5).1 (by decide)

/- ### C6 -/

/-- C6 counterexample: splitting a blank string yields one empty word,
not zero, so with word count `0` the blank inputs are not returned
unchanged — they become `"..."`. -/
theorem truncateWords_blank_cex :
    truncateWords (.str "") (.num ⟨0, 1⟩) = .ok "..." ∧
    truncateWords (.str "   ") (.num ⟨0, 1⟩) = .ok "..." ∧
    ("..." : String) ≠ "" ∧ ("..." : String) ≠ "   " := by
  decide

/-- C6 amended: `truncateWords` splits the trimmed input on whitespace
runs (a blank input yields one empty word); when the word count exceeds
the limit it joins the first `k` words with single spaces and appends
`"..."`, otherwise it returns the original string verbatim; hence a blank
input is returned unchanged exactly when `k ≥ 1`, and yields `"..."` when
`k = 0`. -/
theorem truncateWords_spec (s : String) (k : Nat) :
    truncateWords (.str s) (.num ⟨k, 1⟩) =
      .ok (if k < (splitWs (trimData s.data)).length
        then ⟨List.intercalate [' '] ((splitWs (trimData s.data)).take k) ++ "...".data⟩
        else s) ∧
    (trimData s.data = [] →
      truncateWords (.str s) (.num ⟨k, 1⟩) = .ok (if k = 0 then "..." else s)) := by
  have hval : ¬ (¬ (JSNum.mk k 1).isInt ∨ (JSNum.mk k 1).isNeg) := by
    push_neg
    exact ⟨natNum_isInt k, natNum_not_isNeg k⟩
  have h1 : truncateWords (.str s) (.num ⟨k, 1⟩) =
      .ok (if k < (splitWs (trimData s.data)).length
        then ⟨List.intercalate [' '] ((splitWs (trimData s.data)).take k) ++ "...".data⟩
        else s) := by
    simp only [truncateWords, assertString, ok_bind]
    rw [if_neg hval]
    by_cases h : k < (splitWs (trimData s.data)).length
    · rw [if_pos ((natNum_ltNat k _).mpr h), if_pos h, intNum_floor, Int.toNat_natCast]
      rfl
    · rw [if_neg (fun hc => h ((natNum_ltNat k _).mp hc)), if_neg h]
      rfl
  refine ⟨h1, fun h0 => ?_⟩
  rw [h1, h0]
  by_cases hk : k = 0
  · subst hk
    rw [if_pos (by decide), if_pos rfl]
    exact congrArg Except.ok (by decide)
  · rw [if_neg (by simp only [splitWs, splitWsGo, List.reverse_nil, List.length_singleton]; omega),
      if_neg hk]

/-- C6 witness: the headline example, and a blank input with a positive
limit returned unchanged. -/
theorem truncateWords_spec_wit :
    truncateWords (.str "one two three four") (.num ⟨2, 1⟩) = .ok "one two..." ∧
    truncateWords (.str "") (.num ⟨3, 1⟩) = .ok "" := by
  constructor
  · exact (truncateWords_spec "one two three four" 2).1.trans
      (congrArg Except.ok (by decide))
  · exact ((truncateWords_spec "" 3).2 (by decide)).trans
      (congrArg Except.ok (by decide))

/- ### C7 -/

/-- C7 counterexample: the claim quantifies over every non-negative
number, but at the fractional length `11/2` the code adds `3` characters
of padding while `max(0, 11/2 - 2) = 7/2`; cross-multiplied by the
denominator `2`: `2·(5-2) ≠ 11 - 2·2`. -/
theorem center_fractional_length_cex :
    center (.str "hi") (.num ⟨11, 2⟩) (.str "*") = .ok "*hi**" ∧
    2 * (("*hi**" : String).length - ("hi" : String).length) ≠
      11 - 2 * ("hi" : String).length := by
  decide

/-- C7 amended: for a one-character pad and a non-negative integer target
length `n`, the padding amount is `max(0, n − |s|)` (natural
subtraction); `center` puts `⌊pad/2⌋` on the left and the remainder on
the right, `lpad` all of it on the left, `rpad` all on the right, and an
input of length at least `n` is returned unchanged. -/
theorem pad_spec (s : String) (n : Nat) (c : String) (hc : c.length = 1) :
    center (.str s) (.num ⟨n, 1⟩) (.str c) =
      .ok ⟨repeatData c.data ((n - s.length) / 2) ++ s.data ++
        repeatData c.data ((n - s.length) - (n - s.length) / 2)⟩ ∧
    lpad (.str s) (.num ⟨n, 1⟩) (.str c) =
      .ok ⟨repeatData c.data (n - s.length) ++ s.data⟩ ∧
    rpad (.str s) (.num ⟨n, 1⟩) (.str c) =
      .ok ⟨s.data ++ repeatData c.data (n - s.length)⟩ ∧
    (n ≤ s.length →
      center (.str s) (.num ⟨n, 1⟩) (.str c) = .ok s ∧
      lpad (.str s) (.num ⟨n, 1⟩) (.str c) = .ok s ∧
      rpad (.str s) (.num ⟨n, 1⟩) (.str c) = .ok s) := by
  have hc1 : ¬ (c.length ≠ 1) := not_not_intro hc
  have hneg : ¬ (JSNum.mk n 1).isNeg := natNum_not_isNeg n
  have hcen : center (.str s) (.num ⟨n, 1⟩) (.str c) =
      .ok ⟨repeatData c.data ((n - s.length) / 2) ++ s.data ++
        repeatData c.data ((n - s.length) - (n - s.length) / 2)⟩ := by
    simp only [center, assertString, ok_bind]
    rw [if_neg hc1, if_neg hneg, center_left_count, center_right_count]
    rfl
  have hlp : lpad (.str s) (.num ⟨n, 1⟩) (.str c) =
      .ok ⟨repeatData c.data (n - s.length) ++ s.data⟩ := by
    simp only [lpad, assertString, ok_bind]
    rw [if_neg hc1, if_neg hneg, pad_count]
    rfl
  have hrp : rpad (.str s) (.num ⟨n, 1⟩) (.str c) =
      .ok ⟨s.data ++ repeatData c.data (n - s.length)⟩ := by
    simp only [rpad, assertString, ok_bind]
    rw [if_neg hc1, if_neg hneg, pad_count]
    rfl
  refine ⟨hcen, hlp, hrp, fun h => ?_⟩
  have hz : n - s.length = 0 := by omega
  refine ⟨?_, ?_, ?_⟩
  · rw [hcen, hz]
    exact congrArg Except.ok (by simp [repeatData, mk_data s])
  · rw [hlp, hz]
    exact congrArg Except.ok (by simp [repeatData, mk_data s])
  · rw [hrp, hz]
    exact congrArg Except.ok (by simp [repeatData, mk_data s])

/- ### Initial-segment and longest-common-initial-segment lemmas -/

theorem isInit_nil (l : List Char) : IsInit [] l := ⟨l, rfl⟩

theorem isInit_refl (l : List Char) : IsInit l l := ⟨[], by simp⟩

theorem isInit_trans {a b c : List Char} (h1 : IsInit a b) (h2 : IsInit b c) :
    IsInit a c := by
  obtain ⟨t1, rfl⟩ := h1
  obtain ⟨t2, rfl⟩ := h2
  exact ⟨t1 ++ t2, by simp⟩

theorem isInit_antisymm {a b : List Char} (h1 : IsInit a b) (h2 : IsInit b a) :
    a = b := by
  obtain ⟨t1, rfl⟩ := h1
  obtain ⟨t2, ht⟩ := h2
  have h0 : t1 = [] := by
    have hlen := congrArg List.length ht
    simp only [List.length_append] at hlen
    have h1 : t1.length = 0 := by omega
    exact List.length_eq_zero.mp h1
  rw [h0, List.append_nil]

theorem isPrefixOf_iff (a b : List Char) : a.isPrefixOf b = true ↔ IsInit a b := by
  induction a generalizing b with
  | nil =>
    simp only [List.isPrefixOf]
    exact ⟨fun _ => isInit_nil b, fun _ => trivial⟩
  | cons x as ih =>
    cases b with
    | nil =>
      simp only [List.isPrefixOf]
      constructor
      · intro h
        cases h
      · rintro ⟨t, ht⟩
        cases ht
    | cons y bs =>
      simp only [List.isPrefixOf, Bool.and_eq_true, beq_iff_eq, ih]
      constructor
      · rintro ⟨rfl, t, rfl⟩
        exact ⟨t, rfl⟩
      · rintro ⟨t, ht⟩
        rw [List.cons_append] at ht
        injection ht with h1 h2
        exact ⟨h1, t, h2⟩

theorem lcp_nil_left (b : List Char) : lcp [] b = [] := by
  cases b <;> rfl

theorem lcp_nil_right (a : List Char) : lcp a [] = [] := by
  cases a <;> rfl

theorem lcp_init_left (a b : List Char) : IsInit (lcp a b) a := by
  induction a generalizing b with
  | nil => exact isInit_nil []
  | cons x as ih =>
    cases b with
    | nil => exact isInit_nil _
    | cons y bs =>
      simp only [lcp]
      by_cases h : x = y
      · rw [if_pos h]
        obtain ⟨t, ht⟩ := ih bs
        exact ⟨t, by rw [List.cons_append, ht]⟩
      · rw [if_neg h]
        exact isInit_nil _

theorem lcp_init_right (a b : List Char) : IsInit (lcp a b) b := by
  induction a generalizing b with
  | nil => exact isInit_nil b
  | cons x as ih =>
    cases b with
    | nil => exact isInit_nil _
    | cons y bs =>
      simp only [lcp]
      by_cases h : x = y
      · rw [if_pos h]
        obtain ⟨t, ht⟩ := ih bs
        exact ⟨t, by rw [List.cons_append, ht, h]⟩
      · rw [if_neg h]
        exact isInit_nil _

theorem init_lcp {q a b : List Char} (ha : IsInit q a) (hb : IsInit q b) :
    IsInit q (lcp a b) := by
  induction q generalizing a b with
  | nil => exact isInit_nil _
  | cons x qs ih =>
    obtain ⟨t1, rfl⟩ := ha
    obtain ⟨t2, rfl⟩ := hb
    have hl : lcp ((x :: qs) ++ t1) ((x :: qs) ++ t2) = x :: lcp (qs ++ t1) (qs ++ t2) := by
      simp [lcp]
    rw [hl]
    obtain ⟨t, ht⟩ := ih ⟨t1, rfl⟩ ⟨t2, rfl⟩
    exact ⟨t, by rw [List.cons_append, ht]⟩

theorem lcp_of_init {a b : List Char} (h : IsInit a b) : lcp a b = a := by
  induction a generalizing b with
  | nil => exact lcp_nil_left b
  | cons x as ih =>
    obtain ⟨t, rfl⟩ := h
    have hl : lcp (x :: as) ((x :: as) ++ t) = x :: lcp as (as ++ t) := by
      simp [lcp]
    rw [hl, ih ⟨t, rfl⟩]

theorem lcp_dropLast {a b : List Char} (h : ¬ IsInit a b) :
    lcp a.dropLast b = lcp a b := by
  induction a generalizing b with
  | nil => exact absurd (isInit_nil b) h
  | cons x as ih =>
    cases b with
    | nil =>
      rw [lcp_nil_right, lcp_nil_right]
    | cons y bs =>
      by_cases hxy : x = y
      · subst hxy
        have has : ¬ IsInit as bs := by
          intro ⟨t, ht⟩
          exact h ⟨t, by rw [List.cons_append, ht]⟩
        cases as with
        | nil =>
          exact absurd ⟨bs, rfl⟩ has
        | cons a2 as2 =>
          have hd : (x :: a2 :: as2).dropLast = x :: (a2 :: as2).dropLast := rfl
          rw [hd]
          simp only [lcp, if_pos rfl]
          rw [ih has]
      · cases as with
        | nil => simp [lcp, hxy, List.dropLast]
        | cons a2 as2 =>
          have hd : (x :: a2 :: as2).dropLast = x :: (a2 :: as2).dropLast := rfl
          rw [hd]
          simp [lcp, hxy]

theorem shortenGo_eq (fuel : Nat) (s pre : List Char) (hf : pre.length < fuel) :
    shortenGo fuel s pre =
      if lcp pre s = [] ∧ pre ≠ [] then none else some (lcp pre s) := by
  induction fuel generalizing pre with
  | zero => omega
  | succ f ih =>
    by_cases hp : pre.isPrefixOf s
    · have hinit : IsInit pre s := (isPrefixOf_iff _ _).mp hp
      simp only [shortenGo]
      rw [if_pos hp, lcp_of_init hinit, if_neg (fun hcon => hcon.2 hcon.1)]
    · have hpre : pre ≠ [] := by
        rintro rfl
        exact hp ((isPrefixOf_iff [] s).mpr (isInit_nil s))
      have hni : ¬ IsInit pre s := fun hi => hp ((isPrefixOf_iff _ _).mpr hi)
      simp only [shortenGo]
      rw [if_neg hp]
      by_cases hd : pre.dropLast = []
      · rw [if_pos hd]
        have hone : ∃ x, pre = [x] := by
          cases pre with
          | nil => exact absurd rfl hpre
          | cons x rest =>
            cases rest with
            | nil => exact ⟨x, rfl⟩
            | cons y rest2 => simp [List.dropLast] at hd
        obtain ⟨x, rfl⟩ := hone
        have hlcp : lcp [x] s = [] := by
          cases s with
          | nil => exact lcp_nil_right _
          | cons y ys =>
            have hxy : x ≠ y := by
              rintro rfl
              exact hni ⟨ys, rfl⟩
            simp [lcp, hxy]
        rw [if_pos ⟨hlcp, hpre⟩]
      · rw [if_neg hd]
        have hlen : pre.dropLast.length < f := by
          rw [List.length_dropLast]
          have hp1 : 0 < pre.length := List.length_pos.mpr hpre
          omega
        rw [ih pre.dropLast hlen, lcp_dropLast hni]
        by_cases hl : lcp pre s = []
        · rw [if_pos ⟨hl, hd⟩, if_pos ⟨hl, hpre⟩]
        · rw [if_neg (fun hcon => hl hcon.1), if_neg (fun hcon => hl hcon.1)]

theorem foldl_lcp_nil (l : List (List Char)) : List.foldl lcp [] l = [] := by
  induction l with
  | nil => rfl
  | cons s ss ih => rw [List.foldl_cons, lcp_nil_left, ih]

theorem cpLoop_getD (l : List (List Char)) (pre : List Char) :
    (cpLoop l pre).getD [] = List.foldl lcp pre l := by
  induction l generalizing pre with
  | nil => rfl
  | cons s ss ih =>
    show (match shortenGo (pre.length + 1) s pre with
      | none => none
      | some p => cpLoop ss p).getD [] = _
    rw [shortenGo_eq _ _ _ (by omega)]
    by_cases hc : lcp pre s = [] ∧ pre ≠ []
    · rw [if_pos hc]
      show ([] : List Char) = _
      rw [List.foldl_cons, hc.1, foldl_lcp_nil]
    · rw [if_neg hc]
      show (cpLoop ss (lcp pre s)).getD [] = _
      rw [ih, List.foldl_cons]

theorem foldl_lcp_init (l : List (List Char)) (pre : List Char) :
    IsInit (List.foldl lcp pre l) pre := by
  induction l generalizing pre with
  | nil => exact isInit_refl pre
  | cons s ss ih =>
    rw [List.foldl_cons]
    exact isInit_trans (ih (lcp pre s)) (lcp_init_left pre s)

theorem foldl_lcp_mem (l : List (List Char)) (pre x : List Char) (hx : x ∈ l) :
    IsInit (List.foldl lcp pre l) x := by
  induction l generalizing pre with
  | nil => cases hx
  | cons s ss ih =>
    rw [List.foldl_cons]
    rcases List.mem_cons.mp hx with rfl | hmem
    · exact isInit_trans (foldl_lcp_init ss (lcp pre x)) (lcp_init_right pre x)
    · exact ih (lcp pre s) hmem

theorem init_foldl_lcp (l : List (List Char)) (pre q : List Char)
    (hpre : IsInit q pre) (hall : ∀ x ∈ l, IsInit q x) :
    IsInit q (List.foldl lcp pre l) := by
  induction l generalizing pre with
  | nil => exact hpre
  | cons s ss ih =>
    rw [List.foldl_cons]
    exact ih (lcp pre s) (init_lcp hpre (hall s (List.mem_cons_self s ss)))
      (fun x hx => hall x (List.mem_cons_of_mem s hx))

theorem cpData_eq_foldl (f : List Char) (rest : List (List Char)) :
    commonPrefixData (f :: rest) = List.foldl lcp f (f :: rest) := by
  have h := cpLoop_getD (f :: rest) f
  show (match cpLoop (f :: rest) f with
    | none => []
    | some p => p) = _
  cases hc : cpLoop (f :: rest) f with
  | none => rw [hc] at h; exact h
  | some p => rw [hc] at h; exact h

theorem cpData_is_common {l : List (List Char)} {x : List Char} (hx : x ∈ l) :
    IsInit (commonPrefixData l) x := by
  cases l with
  | nil => cases hx
  | cons f rest =>
    rw [cpData_eq_foldl]
    exact foldl_lcp_mem _ _ _ hx

theorem cpData_greatest {l : List (List Char)} {q : List Char} (hne : l ≠ [])
    (hall : ∀ x ∈ l, IsInit q x) : IsInit q (commonPrefixData l) := by
  cases l with
  | nil => exact absurd rfl hne
  | cons f rest =>
    rw [cpData_eq_foldl]
    exact init_foldl_lcp _ _ _ (hall f (List.mem_cons_self f rest)) hall

theorem commonPrefixString_perm (l l' : List String) (h : l.Perm l') :
    commonPrefixString l = commonPrefixString l' := by
  cases l with
  | nil =>
    rw [h.symm.eq_nil]
  | cons f rest =>
    have hne : l' ≠ [] := by
      rintro rfl
      cases h.eq_nil
    have hmap : (List.map String.data (f :: rest)).Perm (List.map String.data l') :=
      h.map String.data
    have h1 : IsInit (commonPrefixData (List.map String.data (f :: rest)))
        (commonPrefixData (List.map String.data l')) := by
      refine cpData_greatest (by simpa using hne) (fun x hx => ?_)
      exact cpData_is_common (hmap.mem_iff.mpr hx)
    have h2 : IsInit (commonPrefixData (List.map String.data l'))
        (commonPrefixData (List.map String.data (f :: rest))) := by
      refine cpData_greatest (by simp) (fun x hx => ?_)
      exact cpData_is_common (hmap.mem_iff.mp hx)
    exact congrArg String.mk (isInit_antisymm h2 h1).symm

/- ### C8 -/

/-- C8: `commonPrefix` of the empty array is the empty string, the result
is invariant under permutation of the input array, and the headline
example computes `"inters"`. -/
theorem commonPrefix_claims :
    commonPrefixVal [] = .ok "" ∧
    commonPrefixString [] = "" ∧
    (∀ l l' : List String, l.Perm l' → commonPrefixString l = commonPrefixString l') ∧
    commonPrefixString ["interspecies", "interstellar", "interstate"] = "inters" :=
  ⟨rfl, rfl, commonPrefixString_perm, by decide⟩

/-- C8 witness: a concrete permutation yields the same result. -/
theorem commonPrefix_claims_wit :
    commonPrefixString ["interstellar", "interspecies"] =
      commonPrefixString ["interspecies", "interstellar"] :=
  commonPrefix_claims.2.2.1 _ _ (List.Perm.swap "interspecies" "interstellar" [])

/- ### C4 -/

/-- C4: in smart mode `title` splits on literal spaces once, lowercases
exactly the interior stop words (a word that is neither first nor last and
whose lowercase form is in the 20-word set), capitalizes every other word
and rejoins with single spaces — the behaviour described by the
specification (`titleSmartSpec`) — and the headline example holds. -/
theorem title_smart_matches_spec :
    (∀ s : String, title (.str s) (.bool true) = .ok (titleSmartSpec s)) ∧
    title (.str "a tale of two cities") (.bool true) = .ok "A Tale of Two Cities" := by
  constructor
  · intro s
    show Except.ok (String.mk (titleData s.data true)) = Except.ok (titleSmartSpec s)
    refine congrArg Except.ok ?_
    simp only [titleData, titleSmartSpec]
    refine congrArg String.mk (congrArg (List.intercalate [' ']) ?_)
    refine congrArg (fun g => List.map g (splitSpace s.data).enum) (funext fun iw => ?_)
    by_cases h0 : iw.1 = 0
    · simp [h0]
    · by_cases h1 : iw.1 = (splitSpace s.data).length - 1
      · simp [h0, h1]
      · by_cases h2 : exceptions.contains (lowerData iw.2)
        · simp [h0, h1, h2]
        · simp [h0, h1, h2]
  · decide

/-- C7 witness: the three headline examples. -/
theorem pad_spec_wit :
    center (.str "hi") (.num ⟨6, 1⟩) (.str "*") = .ok "**hi**" ∧
    lpad (.str "hi") (.num ⟨5, 1⟩) (.str " ") = .ok "   hi" ∧
    rpad (.str "hi") (.num ⟨5, 1⟩) (.str " ") = .ok "hi   " := by
  refine ⟨?_, ?_, ?_⟩
  · exact (pad_spec "hi" 6 "*" (by decide)).1.trans (congrArg Except.ok (by decide))
  · exact (pad_spec "hi" 5 " " (by decide)).2.1.trans (congrArg Except.ok (by decide))
  · exact (pad_spec "hi" 5 " " (by decide)).2.2.1.trans (congrArg Except.ok (by decide))

/- ### camelCase scanner lemmas -/

theorem camelGo_nil (f : Nat) : camelGo f [] = [] := by
  cases f <;> rfl

theorem dropWhile_length_le (p : Char → Bool) (l : List Char) :
    (l.dropWhile p).length ≤ l.length := by
  induction l with
  | nil => simp [List.dropWhile]
  | cons c cs ih =>
    by_cases hp : p c = true
    · simp only [List.dropWhile, hp, List.length_cons]
      omega
    · rw [Bool.not_eq_true] at hp
      simp only [List.dropWhile, hp]
      exact le_refl _

theorem camelGo_cons_sep (f : Nat) (c : Char) (cs : List Char)
    (h : isAsciiAlnum c = false) :
    camelGo (f + 1) (c :: cs) =
      match cs.dropWhile (fun x => !isAsciiAlnum x) with
      | a :: rest => a.toUpper :: camelGo f rest
      | [] => trailingSep (c :: cs) := by
  simp [camelGo, h]

theorem camelGo_fuel (f : Nat) : ∀ (g : Nat) (l : List Char),
    l.length ≤ f → l.length ≤ g → camelGo f l = camelGo g l := by
  induction f with
  | zero =>
    intro g l hf _
    have : l = [] := List.length_eq_zero.mp (by omega)
    subst this
    rw [camelGo_nil, camelGo_nil]
  | succ f' ih =>
    intro g l hf hg
    cases l with
    | nil => rw [camelGo_nil, camelGo_nil]
    | cons c cs =>
      cases g with
      | zero => simp at hg
      | succ g' =>
        by_cases ha : isAsciiAlnum c = true
        · simp only [camelGo, ha, if_true]
          rw [ih g' cs (by simp at hf; omega) (by simp at hg; omega)]
        · rw [Bool.not_eq_true] at ha
          simp only [camelGo, ha, Bool.false_eq_true, if_false]
          cases hdw : cs.dropWhile (fun x => !isAsciiAlnum x) with
          | nil => rfl
          | cons a rest =>
            have hrl : rest.length < cs.length := by
              have h1 := dropWhile_length_le (fun x => !isAsciiAlnum x) cs
              rw [hdw] at h1
              simp at h1
              omega
            have heq : camelGo f' rest = camelGo g' rest :=
              ih g' rest (by simp at hf; omega) (by simp at hg; omega)
            show a.toUpper :: camelGo f' rest = a.toUpper :: camelGo g' rest
            rw [heq]

theorem dropWhile_append_of_mem {p : Char → Bool} {l₁ : List Char}
    (l₂ : List Char) (h : ∃ x ∈ l₁, p x = false) :
    (l₁ ++ l₂).dropWhile p = l₁.dropWhile p ++ l₂ := by
  induction l₁ with
  | nil =>
    obtain ⟨x, hx, _⟩ := h
    cases hx
  | cons c cs ih =>
    by_cases hp : p c = true
    · simp only [List.cons_append, List.dropWhile, hp]
      refine ih ?_
      obtain ⟨x, hx, hpx⟩ := h
      rcases List.mem_cons.mp hx with rfl | hmem
      · rw [hp] at hpx
        cases hpx
      · exact ⟨x, hmem, hpx⟩
    · rw [Bool.not_eq_true] at hp
      simp only [List.cons_append, List.dropWhile, hp]
      rfl

theorem dropWhile_ne_nil_of_mem {p : Char → Bool} {l : List Char} {x : Char}
    (hx : x ∈ l) (hpx : p x = false) : l.dropWhile p ≠ [] := by
  induction l with
  | nil => cases hx
  | cons c cs ih =>
    by_cases hp : p c = true
    · simp only [List.dropWhile, hp]
      rcases List.mem_cons.mp hx with rfl | hmem
      · rw [hp] at hpx
        cases hpx
      · exact ih hmem
    · rw [Bool.not_eq_true] at hp
      simp only [List.dropWhile, hp]
      exact List.cons_ne_nil c cs

theorem ends_of_append_split {u v rest : List Char} {a : Char}
    (h : u ++ [a] = v ++ rest) (hne : rest ≠ []) : ∃ r', rest = r' ++ [a] := by
  rcases List.eq_nil_or_concat rest with rfl | ⟨r', b, hrb⟩
  · exact absurd rfl hne
  · rw [List.concat_eq_append] at hrb
    subst hrb
    rw [← List.append_assoc] at h
    have hlast : [a] = [b] := (List.append_inj' h rfl).2
    injection hlast with hab _
    exact ⟨r', by rw [hab]⟩

theorem camelGo_append_sep (f : Nat) : ∀ (l : List Char) (c : Char),
    l.length < f → isAsciiAlnum c = false →
    (l = [] ∨ ∃ t a, l = t ++ [a] ∧ isAsciiAlnum a = true) →
    camelGo f (l ++ [c]) = camelGo f l ++ [c] := by
  induction f with
  | zero =>
    intro l c hf _ _
    omega
  | succ f' ih =>
    intro l c hf hc hl
    rcases hl with rfl | ⟨t, a, hta, ha⟩
    · simp only [List.nil_append, camelGo_nil, List.nil_append]
      simp [camelGo, hc, List.dropWhile, trailingSep, lastNonTerm]
    · cases l with
      | nil => simp at hta
      | cons c0 cs =>
        by_cases h0 : isAsciiAlnum c0 = true
        · simp only [List.cons_append, camelGo, h0, if_true, List.cons_append]
          refine congrArg (List.cons c0) ?_
          refine ih cs c (by simp at hf; omega) hc ?_
          cases t with
          | nil =>
            injection hta with h1 h2
            exact Or.inl h2
          | cons t0 ts =>
            rw [List.cons_append] at hta
            injection hta with h1 h2
            exact Or.inr ⟨ts, a, h2, ha⟩
        · rw [Bool.not_eq_true] at h0
          have ht : ∃ ts, t = c0 :: ts := by
            cases t with
            | nil =>
              injection hta with h1 h2
              rw [h1] at h0
              rw [ha] at h0
              cases h0
            | cons t0 ts =>
              rw [List.cons_append] at hta
              injection hta with h1 _
              exact ⟨ts, by rw [h1]⟩
          obtain ⟨ts, rfl⟩ := ht
          rw [List.cons_append] at hta
          injection hta with _ hcs
          have hmem : a ∈ cs := by
            rw [hcs]
            simp
          have hpa : (fun x => !isAsciiAlnum x) a = false := by simp [ha]
          have hdw := dropWhile_append_of_mem (p := fun x => !isAsciiAlnum x) [c]
            ⟨a, hmem, hpa⟩
          have hnn := dropWhile_ne_nil_of_mem (p := fun x => !isAsciiAlnum x) hmem hpa
          cases hdwe : cs.dropWhile (fun x => !isAsciiAlnum x) with
          | nil => exact absurd hdwe hnn
          | cons b rest =>
            rw [hdwe] at hdw
            have hdw2 : (cs ++ [c]).dropWhile (fun x => !isAsciiAlnum x)
                = b :: (rest ++ [c]) := by
              rw [hdw, List.cons_append]
            have hL : camelGo (f' + 1) ((c0 :: cs) ++ [c])
                = b.toUpper :: camelGo f' (rest ++ [c]) := by
              rw [List.cons_append, camelGo_cons_sep f' c0 (cs ++ [c]) h0, hdw2]
            have hR : camelGo (f' + 1) (c0 :: cs) = b.toUpper :: camelGo f' rest := by
              rw [camelGo_cons_sep f' c0 cs h0, hdwe]
            rw [hL, hR, List.cons_append]
            refine congrArg (List.cons b.toUpper) ?_
            have hrl : rest.length < cs.length := by
              have h1 := dropWhile_length_le (fun x => !isAsciiAlnum x) cs
              rw [hdwe] at h1
              simp at h1
              omega
            refine ih rest c (by simp at hf; omega) hc ?_
            rcases List.eq_nil_or_concat rest with rfl | ⟨r', b', hrest⟩
            · exact Or.inl rfl
            · have htw := List.takeWhile_append_dropWhile (p := fun x => !isAsciiAlnum x)
                (l := cs)
              rw [hdwe] at htw
              have hsplit : ts ++ [a] = (cs.takeWhile (fun x => !isAsciiAlnum x) ++ [b]) ++ rest := by
                rw [List.append_assoc, List.singleton_append, htw, hcs]
              obtain ⟨r2, hr2⟩ := ends_of_append_split hsplit (by rw [hrest]; simp)
              exact Or.inr ⟨r2, a, hr2, ha⟩

/- ### C10 -/

/-- C10 counterexample: the regex `[^a-zA-Z0-9]+(.)` backtracks at the end
of the string so that `(.)` captures the final separator, hence a trailing
run of two hyphens does not survive: `camelCase("hello--") = "hello-"`,
not `"hello--"` as the claim states. -/
theorem camelCase_trailing_run_cex :
    camelCase (.str "hello--") = .ok "hello-" ∧ ("hello-" : String) ≠ "hello--" := by
  decide

/-- C10 amended: a trailing non-alphanumeric run survives only when it
cannot be matched — a run of exactly one character (preceded by an
alphanumeric character, or standing alone) is kept, so
`camelCase("-") = "-"`; a longer trailing run is instead collapsed by the
backtracking capture, e.g. `camelCase("hello--") = "hello-"`. -/
theorem camelCase_trailing_single (s : String) (c : Char)
    (hc : isAsciiAlnum c = false)
    (hs : s.data = [] ∨ ∃ t a, s.data = t ++ [a] ∧ isAsciiAlnum a = true) :
    camelCase (.str ⟨s.data ++ [c]⟩) = .ok ⟨(camelStr s).data ++ [c]⟩ := by
  refine congrArg Except.ok ?_
  show String.mk (camelData ((s.data ++ [c]).map Char.toLower)) = _
  refine congrArg String.mk ?_
  rw [List.map_append, List.map_singleton, toLower_of_not_alnum c hc]
  show camelData (s.data.map Char.toLower ++ [c]) = _
  unfold camelData
  have hlen : (s.data.map Char.toLower ++ [c]).length
      = (s.data.map Char.toLower).length + 1 := by simp
  rw [hlen]
  have hends : s.data.map Char.toLower = [] ∨
      ∃ t a, s.data.map Char.toLower = t ++ [a] ∧ isAsciiAlnum a = true := by
    rcases hs with h0 | ⟨t, a, hta, ha⟩
    · rw [h0]
      exact Or.inl rfl
    · refine Or.inr ⟨t.map Char.toLower, a.toLower, ?_, ?_⟩
      · rw [hta, List.map_append, List.map_singleton]
      · rw [isAsciiAlnum_toLower, ha]
  rw [camelGo_append_sep _ _ c (by omega) hc hends]
  rw [camelGo_fuel _ (s.data.map Char.toLower).length _ (by omega) (by omega)]
  rfl

/-- C10 witness: a single trailing hyphen survives after `"hello"` and
standing alone. -/
theorem camelCase_trailing_single_wit :
    camelCase (.str ⟨"hello".data ++ ['-']⟩) = .ok ⟨(camelStr "hello").data ++ ['-']⟩ ∧
    camelCase (.str ⟨"".data ++ ['-']⟩) = .ok ⟨(camelStr "").data ++ ['-']⟩ ∧
    String.mk ("hello".data ++ ['-']) = "hello-" ∧
    String.mk ((camelStr "hello").data ++ ['-']) = "hello-" ∧
    String.mk ("".data ++ ['-']) = "-" ∧
    String.mk ((camelStr "").data ++ ['-']) = "-" :=
  ⟨camelCase_trailing_single "hello" '-' (by decide)
      (Or.inr ⟨['h', 'e', 'l', 'l'], 'o', by decide, by decide⟩),
   camelCase_trailing_single "" '-' (by decide) (Or.inl (by decide)),
   by decide, by decide, by decide, by decide⟩

end Stringkit
